import Mathlib

/-!
Verification of the Markdown pipeline components of this repository.

The definitions below are shallow embeddings of the Python sources:
`markdown/__main__.py` (CLI option parsing), `markdown/htmlparser.py`
(the raw-HTML extractor and its monkeypatched tokenizer regexes),
`markdown/extensions/tables.py` (the table block processor) and
`markdown/extensions/abbr.py` (the abbreviation block processor).
Components of the wider library that are only specified here (the
registry, the inline tree processor, the serializer, the stash
postprocessor) are modelled from the specification text and marked
`Modelled from the spec:` in their doc comments.
-/

namespace MarkdownSpec

/-! ### CLI option parsing (`markdown/__main__.py`, `parse_options`) -/

/-- The `optparse` option values of `parse_options`, with the defaults
declared in `markdown/__main__.py` lines 57-89.  `verbose` holds the
numeric logging level (`CRITICAL = 50`, `WARNING = 30`, `DEBUG = 10`). -/
structure CliValues where
  filename : Option String
  encoding : Option String
  output_format : String
  lazy_ol : Bool
  extensions : Option (List String)
  configfile : Option String
  verbose : Nat
deriving DecidableEq, Repr

/-- Defaults: `filename=None`, `encoding=None`, `output_format='xhtml'`,
`lazy_ol=True`, `extensions=None`, `configfile=None`, `verbose=CRITICAL`. -/
def cliDefaults : CliValues :=
  ⟨none, none, "xhtml", true, none, none, 50⟩

/-- One step of argument scanning: the declared options of
`parse_options`.  Options taking a value consume the next argument;
an unrecognized token is collected as a positional argument.
Returns `none` when an option lacks its required value. -/
def scanArgs : List String → CliValues → List String →
    Option (CliValues × List String)
  | [], vals, pos => some (vals, pos.reverse)
  | a :: rest, vals, pos =>
    if a == "-f" || a == "--file" then
      match rest with
      | v :: rest2 => scanArgs rest2 { vals with filename := some v } pos
      | [] => none
    else if a == "-e" || a == "--encoding" then
      match rest with
      | v :: rest2 => scanArgs rest2 { vals with encoding := some v } pos
      | [] => none
    else if a == "-o" || a == "--output_format" then
      match rest with
      | v :: rest2 => scanArgs rest2 { vals with output_format := v } pos
      | [] => none
    else if a == "-n" || a == "--no_lazy_ol" then
      scanArgs rest { vals with lazy_ol := false } pos
    else if a == "-x" || a == "--extension" then
      match rest with
      | v :: rest2 =>
        scanArgs rest2
          { vals with extensions := some ((vals.extensions.getD []) ++ [v]) } pos
      | [] => none
    else if a == "-c" || a == "--extension_configs" then
      match rest with
      | v :: rest2 => scanArgs rest2 { vals with configfile := some v } pos
      | [] => none
    else if a == "-q" || a == "--quiet" then
      scanArgs rest { vals with verbose := 60 } pos
    else if a == "-v" || a == "--verbose" then
      scanArgs rest { vals with verbose := 30 } pos
    else if a == "--noisy" then
      scanArgs rest { vals with verbose := 10 } pos
    else
      scanArgs rest vals (a :: pos)

/-- The `opts` dictionary returned by `parse_options`
(`markdown/__main__.py` lines 113-121). -/
structure CliOpts where
  input : Option String
  output : Option String
  extensions : List String
  extension_configs : List (String × List (String × String))
  encoding : Option String
  output_format : String
  lazy_ol : Bool
deriving DecidableEq, Repr

/-- `parse_options(args)` from `markdown/__main__.py` lines 46-123.
`loadConfig` stands for the `yaml_load` file read performed when
`-c CONFIG_FILE` is given (file input is outside the pure model);
it is never consulted when no config file option is present.
Returns the opts mapping and the logging level. -/
def parse_options (loadConfig : String → Option (List (String × List (String × String))))
    (args : List String) : Option (CliOpts × Nat) :=
  match scanArgs args cliDefaults [] with
  | none => none
  | some (vals, pos) =>
    let input_file := pos.head?
    let exts := vals.extensions.getD []
    let configs := match vals.configfile with
      | none => some []
      | some f => loadConfig f
    match configs with
    | none => none
    | some cfg =>
      some (⟨input_file, vals.filename, exts, cfg, vals.encoding,
             vals.output_format, vals.lazy_ol⟩, vals.verbose)

/-! ### The monkeypatched tokenizer regexes (`markdown/htmlparser.py` lines 34-41) -/

/-- `htmlparser.piclose = re.compile(r'\?>')`: index of the first
occurrence of the two-character terminator `?>` in the given text. -/
def piclose_find : List Char → Option Nat
  | [] => none
  | a :: rest =>
    if a = '?' ∧ rest.head? = some '>' then some 0
    else (piclose_find rest).map (· + 1)

/-- The character class `[-.a-zA-Z0-9]` of the patched `entityref` regex. -/
def entityTailChar (c : Char) : Bool :=
  c == '-' || c == '.' || c.isAlpha || c.isDigit

/-- `htmlparser.entityref = re.compile(r'&([a-zA-Z][-.a-zA-Z0-9]*);')`,
matched at the start of the given text (as the tokenizer does at a `&`).
The greedy run `[-.a-zA-Z0-9]*` never backtracks because `;` is outside
the class, so the match requires the longest tail run to be followed by
`;`.  Returns the reference name and the total number of characters
matched (including `&` and the mandatory closing `;`). -/
def entityref_match : List Char → Option (String × Nat)
  | a :: c :: rest =>
    if a = '&' ∧ c.isAlpha then
      if (rest.drop (rest.takeWhile entityTailChar).length).head? = some ';' then
        some (⟨c :: rest.takeWhile entityTailChar⟩,
              (rest.takeWhile entityTailChar).length + 3)
      else none
    else none
  | _ => none

/-- `htmlparser.incomplete = htmlparser.entityref`
(`markdown/htmlparser.py` line 41): the `incomplete` pattern is the very
same regex as `entityref`. -/
def incomplete_match : List Char → Option (String × Nat) :=
  entityref_match

/-! ### The raw-HTML extractor (`markdown/htmlparser.py`, `HTMLExtractor`)

The extractor is a subclass of the (monkeypatched) `html.parser`
tokenizer; the tokenizer delivers events (`handle_starttag`,
`handle_endtag`, `handle_data`, `handle_empty_tag` and friends) which the
class methods below process.  The embedding models the handler methods
faithfully over an explicit state; tokenizer-computed facts (the tag's
source text, `md.is_block_level(tag)`, `at_line_start()` and the
`blank_line_re` lookahead on the remaining raw data) travel with each
event.  The tag stack is kept most-recent-first (Python appends to and
pops from the end of its list). -/

/-- An entry of `cleandoc`: either literal text or the stash placeholder
returned by `md.htmlStash.store` for the raw block with that index. -/
inductive Chunk where
  | text (s : String)
  | placeholder (n : Nat)
deriving DecidableEq, Repr

/-- Modelled from the spec: the placeholder token is a sentinel character,
`wzxhzdk:` and the decimal index, closed by a second sentinel. -/
def placeholderString (n : Nat) : String :=
  "\x02wzxhzdk:" ++ toString n ++ "\x03"

/-- The string content of a `cleandoc` entry. -/
def chunkStr : Chunk → String
  | .text s => s
  | .placeholder n => placeholderString n

/-- The mutable state of `HTMLExtractor` (`reset`, lines 67-74) together
with the `htmlStash` of the Markdown instance: `stash` lists the stored
raw fragments in order, so `store(s)` returns placeholder index
`stash.length`. -/
structure ExtractorState where
  inraw : Bool
  intail : Bool
  stack : List String
  cache : List String
  cleandoc : List Chunk
  stash : List String
deriving DecidableEq, Repr

/-- The freshly `reset` extractor with an empty stash. -/
def initState : ExtractorState := ⟨false, false, [], [], [], []⟩

/-- `blank_line_re = re.compile(r'^([ ]*\n){2}')`: eat one `[ ]*\n`
group from the front. -/
def eatBlankLine (s : List Char) : Option (List Char) :=
  match s.dropWhile (· == ' ') with
  | '\n' :: r => some r
  | _ => none

/-- Whether `blank_line_re` matches at the start of `s`: two blank lines
(each spaces-only, ending in a newline). -/
def blank_line_matches (s : String) : Bool :=
  match eatBlankLine s.data with
  | some r => (eatBlankLine r).isSome
  | none => false

/-- Python slice `rawdata[a:a+len]` over the character list. -/
def pySlice (s : String) (a len : Nat) : List Char :=
  (s.data.drop a).take len

/-- `HTMLExtractor.at_line_start` (lines 104-115): true at offset 0;
false beyond offset 3; otherwise true when the first `offset` characters
of the current line (starting at `line_offset` in `rawdata`) are all
whitespace (Python `strip() == ''`). -/
def at_line_start (rawdata : String) (line_offset offset : Nat) : Bool :=
  if offset == 0 then true
  else if offset > 3 then false
  else (pySlice rawdata line_offset offset).all (·.isWhitespace)

/-- `self.empty_tags = set(['hr'])` (line 61). -/
def empty_tags : List String := ["hr"]

/-- The pop loop of `handle_endtag` (lines 159-162): pop entries (from
the most-recent end) until `tag` itself is popped.  Only called when
`tag in self.stack`. -/
def popUntil (tag : String) : List String → List String
  | [] => []
  | t :: rest => if t == tag then rest else popUntil tag rest

/-- `HTMLExtractor.handle_empty_tag` (lines 188-209).  `atLineStart` is
the value of `self.at_line_start()` and `blankFollows` the result of the
`blank_line_re` lookahead on the rawdata following the tag. -/
def handle_empty_tag (st : ExtractorState) (data : String) (isBlock atLineStart blankFollows : Bool) :
    ExtractorState :=
  if st.inraw || st.intail then
    { st with cache := st.cache ++ [data] }
  else if atLineStart && isBlock then
    let data2 := if blankFollows then data ++ "\n" else data
    let intail2 := if blankFollows then st.intail else true
    let item := (st.cleandoc.getLast?.map chunkStr).getD ""
    let doc := if !(List.isSuffixOf "\n\n".data item.data)
                  && List.isSuffixOf "\n".data item.data
               then st.cleandoc ++ [.text "\n"] else st.cleandoc
    { st with intail := intail2,
              cleandoc := doc ++ [.placeholder st.stash.length, .text "\n\n"],
              stash := st.stash ++ [data2] }
  else
    { st with cleandoc := st.cleandoc ++ [.text data] }

/-- `HTMLExtractor.handle_starttag` (lines 132-151).  `text` is
`get_starttag_text()`, `isBlock` is `md.is_block_level(tag)`,
`atLineStart` is `self.at_line_start()`; tags in `empty_tags` are
forwarded to `handle_startendtag`, i.e. `handle_empty_tag`
(`blankFollows` is that call's lookahead). -/
def handle_starttag (st : ExtractorState) (tag text : String)
    (isBlock atLineStart blankFollows : Bool) : ExtractorState :=
  if tag ∈ empty_tags then
    handle_empty_tag st text isBlock atLineStart blankFollows
  else
    let st2 := if isBlock && (st.intail || (atLineStart && !st.inraw))
               then { st with inraw := true, cleandoc := st.cleandoc ++ [.text "\n"] }
               else st
    if st2.inraw then
      { st2 with stack := tag :: st2.stack, cache := st2.cache ++ [text] }
    else
      { st2 with cleandoc := st2.cleandoc ++ [.text text] }

/-- `HTMLExtractor.handle_endtag` (lines 153-178).  `text` is
`get_endtag_text(tag)` and `blankFollows` the `blank_line_re` lookahead
on the rawdata following the end tag. -/
def handle_endtag (st : ExtractorState) (tag text : String) (blankFollows : Bool) :
    ExtractorState :=
  if st.inraw then
    let cache2 := st.cache ++ [text]
    let stack2 := if st.stack.contains tag then popUntil tag st.stack else st.stack
    if stack2.isEmpty then
      let cache3 := if blankFollows then cache2 ++ ["\n"] else cache2
      let intail2 := if blankFollows then st.intail else true
      { st with inraw := false, intail := intail2, stack := stack2,
                cache := [],
                cleandoc := st.cleandoc ++ [.placeholder st.stash.length, .text "\n\n"],
                stash := st.stash ++ [String.join cache3] }
    else
      { st with cache := cache2, stack := stack2 }
  else
    { st with cleandoc := st.cleandoc ++ [.text text] }

/-- `HTMLExtractor.handle_data` (lines 180-186). -/
def handle_data (st : ExtractorState) (data : String) : ExtractorState :=
  let st2 := if st.intail && data.data.contains '\n' then { st with intail := false } else st
  if st2.inraw then
    { st2 with cache := st2.cache ++ [data] }
  else
    { st2 with cleandoc := st2.cleandoc ++ [.text data] }

/-- A tokenizer event delivered to the extractor, together with the
positional facts the tokenizer computes for it. -/
inductive Event where
  | startTag (tag text : String) (isBlock atLineStart blankFollows : Bool)
  | endTag (tag text : String) (blankFollows : Bool)
  | data (s : String)
  | emptyTag (data : String) (isBlock atLineStart blankFollows : Bool)
deriving DecidableEq, Repr

/-- Dispatch one event to the matching handler method. -/
def stepEvent (st : ExtractorState) : Event → ExtractorState
  | .startTag tag text isBlock als bf => handle_starttag st tag text isBlock als bf
  | .endTag tag text bf => handle_endtag st tag text bf
  | .data s => handle_data st s
  | .emptyTag d isBlock als bf => handle_empty_tag st d isBlock als bf

/-- Feed a list of events to the extractor. -/
def runEvents (st : ExtractorState) (es : List Event) : ExtractorState :=
  es.foldl stepEvent st

/-- `HTMLExtractor.close` (lines 76-89), final flush of `_cache`:
unclosed raw content is stashed as-is. -/
def closeExtractor (st : ExtractorState) : ExtractorState :=
  if st.cache.isEmpty then st
  else { st with cleandoc := st.cleandoc ++ [.placeholder st.stash.length],
                 stash := st.stash ++ [String.join st.cache],
                 cache := [] }

/-- The source text an event stands for (each handler receives exactly
this text from the tokenizer). -/
def eventText : Event → String
  | .startTag _ t _ _ _ => t
  | .endTag _ t _ => t
  | .data s => s
  | .emptyTag d _ _ _ => d

/-- The raw source text of a list of events. -/
def renderEvents (es : List Event) : String :=
  String.join (es.map eventText)

/-- Modelled from the spec: the final postprocessor replaces every stash
placeholder by the stored fragment; those tokens traverse the pipeline
untouched. -/
def restoreChunk (stash : List String) : Chunk → String
  | .text s => s
  | .placeholder n => stash.getD n (placeholderString n)

/-- Strip newlines from both ends of a string (the trailing-newline
normalization the round-trip property is stated up to). -/
def normalizeNewlines (s : String) : String :=
  ⟨((s.data.dropWhile (· == '\n')).reverse.dropWhile (· == '\n')).reverse⟩

/-- Modelled from the spec: `convert` on a pure raw-HTML document — the
extractor runs over the full text, the placeholder passes through the
block stage untouched, and the final postprocessor restores the stashed
fragments. -/
def convertRaw (es : List Event) : String :=
  let st := closeExtractor (runEvents initState es)
  String.join (st.cleandoc.map (restoreChunk st.stash))

/-- Properly matched tag soup strictly inside a raw region: character
data, empty tags, and properly nested non-`hr` start/end tag pairs. -/
inductive Matched : List Event → Prop where
  | nil : Matched []
  | dat (s : String) (es : List Event) : Matched es → Matched (.data s :: es)
  | emp (d : String) (ib als bf : Bool) (es : List Event) :
      Matched es → Matched (.emptyTag d ib als bf :: es)
  | tag (tg t t2 : String) (ib als bf bf2 : Bool) (inner rest : List Event) :
      tg ∉ empty_tags → Matched inner → Matched rest →
      Matched (.startTag tg t ib als bf :: (inner ++ .endTag tg t2 bf2 :: rest))

/-- Whether any non-whitespace character occurs before the first newline
of `s` (the condition the spec attaches to tail mode). -/
def nonWsOnSameLine (s : String) : Bool :=
  (s.data.takeWhile (· ≠ '\n')).any (fun c => !c.isWhitespace)

/-! ### Tables extension (`markdown/extensions/tables.py`, `TableProcessor`) -/

/-- Python `str.strip(' ')`: remove spaces (only) from both ends. -/
def stripSpaces (s : String) : String :=
  ⟨((s.data.dropWhile (· == ' ')).reverse.dropWhile (· == ' ')).reverse⟩

/-- Python `str.strip()` on a char list: remove whitespace from both ends. -/
def stripWs (l : List Char) : List Char :=
  ((l.dropWhile Char.isWhitespace).reverse.dropWhile Char.isWhitespace).reverse

/-- Helper for Python `str.split('\n')`. -/
def splitNlAux : List Char → List Char → List String
  | [], acc => [⟨acc.reverse⟩]
  | c :: rest, acc =>
    if c == '\n' then ⟨acc.reverse⟩ :: splitNlAux rest []
    else splitNlAux rest (c :: acc)

/-- Python `str.split('\n')`. -/
def splitNl (s : String) : List String := splitNlAux s.data []

/-- Python slice `s[a:b]`. -/
def pySliceStr (s : String) (a b : Nat) : String := ⟨(s.data.drop a).take (b - a)⟩

/-- Python slice `s[a:]`. -/
def pySliceFrom (s : String) (a : Nat) : String := ⟨s.data.drop a⟩

/-- `RE_END_BORDER = re.compile(r'(?<!\\)(?:\\\\)*\|$')` as a Boolean
test (`search(...) is not None`): the row ends in `|` preceded by an
even-length (possibly zero) run of backslashes. -/
def re_end_border_matches (row : String) : Bool :=
  match row.data.reverse with
  | '|' :: rest => (rest.takeWhile (· == '\\')).length % 2 == 0
  | _ => false

/-- `RE_END_BORDER.sub('', row)`: remove the matched trailing
even-length backslash run together with the final `|`; rows without a
match are unchanged. -/
def re_end_border_sub (row : String) : String :=
  match row.data.reverse with
  | '|' :: rest =>
    if (rest.takeWhile (· == '\\')).length % 2 == 0 then
      ⟨(rest.drop (rest.takeWhile (· == '\\')).length).reverse⟩
    else row
  | _ => row

/-- A match of `RE_CODE_PIPES = (?:(\\\\)|(\\`+)|(`+)|(\\\|)|(\|))`
with its start position; the alternatives are tried in the regex's
order at each scan position. -/
inductive RowTok where
  | escEsc (pos : Nat)
  | escTics (pos count : Nat)
  | tics (pos count : Nat)
  | escPipe (pos : Nat)
  | pipe (pos : Nat)
deriving DecidableEq, Repr

/-- The `finditer` scan of `RE_CODE_PIPES` over a row.  The fuel is an
upper bound on the number of scan steps (each step consumes at least
one character); `scanRow` supplies the row length. -/
def scanRowFuel : Nat → List Char → Nat → List RowTok
  | 0, _, _ => []
  | _ + 1, [], _ => []
  | fuel + 1, '\\' :: '\\' :: rest, i => .escEsc i :: scanRowFuel fuel rest (i + 2)
  | fuel + 1, '\\' :: '`' :: rest, i =>
    let n := 1 + (rest.takeWhile (· == '`')).length
    .escTics i n :: scanRowFuel fuel (rest.dropWhile (· == '`')) (i + 1 + n)
  | fuel + 1, '\\' :: '|' :: rest, i => .escPipe i :: scanRowFuel fuel rest (i + 2)
  | fuel + 1, '`' :: rest, i =>
    let n := 1 + (rest.takeWhile (· == '`')).length
    .tics i n :: scanRowFuel fuel (rest.dropWhile (· == '`')) (i + n)
  | fuel + 1, '|' :: rest, i => .pipe i :: scanRowFuel fuel rest (i + 1)
  | fuel + 1, _ :: rest, i => scanRowFuel fuel rest (i + 1)

/-- All `RE_CODE_PIPES` matches of a row, with positions. -/
def scanRow (l : List Char) : List RowTok := scanRowFuel l.length l 0

/-- The `tics`/`tic_points` data of a backtick group match:
`(count, start, end - 1, escape length)` as in `_split` lines 155-168. -/
def ticData : RowTok → Option (Nat × Nat × Nat × Nat)
  | .escTics i n => some (n, i, i + n, 1)
  | .tics i n => some (n, i, i + n - 1, 0)
  | _ => none

/-- The recorded pipe positions (group 5 matches, `_split` line 171). -/
def pipePositions (toks : List RowTok) : List Nat :=
  toks.filterMap (fun t => match t with | .pipe p => some p | _ => none)

/-- The tic pairing loop of `_split` (lines 177-188): each group is
paired with the next group of exactly matching size (the opener's size
is its count minus its escape length), producing code span regions. -/
def pairTicsFuel : Nat → List (Nat × Nat × Nat × Nat) → List (Nat × Nat)
  | 0, _ => []
  | _ + 1, [] => []
  | fuel + 1, (cnt, s, _, esc) :: rest =>
    let size := cnt - esc
    if size == 0 then pairTicsFuel fuel rest
    else
      match rest.findIdx? (fun x => x.1 == size) with
      | none => pairTicsFuel fuel rest
      | some j =>
        match rest.get? j with
        | none => pairTicsFuel fuel rest
        | some (_, _, e2, _) => (s, e2) :: pairTicsFuel fuel (rest.drop (j + 1))

/-- The tic regions of a token list. -/
def ticRegions (toks : List RowTok) : List (Nat × Nat) :=
  pairTicsFuel (toks.filterMap ticData).length (toks.filterMap ticData)

/-- The pipe resolution loop of `_split` (lines 195-206): walk the
regions in order; a pipe before the region start is kept (break), one
inside a region is thrown out. -/
def pipeThrownOut (p : Nat) : List (Nat × Nat) → Bool
  | [] => false
  | (s, e) :: rest =>
    if p < s then false
    else if s ≤ p && p ≤ e then true
    else pipeThrownOut p rest

/-- The final split of `_split` (lines 209-214): cut the row at each
good pipe, dropping the pipe characters. -/
def splitAtPipesAux (row : String) : Nat → List Nat → List String
  | pos, [] => [pySliceFrom row pos]
  | pos, p :: ps => pySliceStr row pos p :: splitAtPipesAux row (p + 1) ps

/-- `TableProcessor._split` (lines 144-214). -/
def tableSplit (row : String) : List String :=
  let toks := scanRow row.data
  let good := (pipePositions toks).filter (fun p => !(pipeThrownOut p (ticRegions toks)))
  splitAtPipesAux row 0 good

/-- `TableProcessor._split_row` (lines 136-142): with a border, strip a
leading `|` and the `RE_END_BORDER` trailing pipe before splitting. -/
def _split_row (border : Bool) (row : String) : List String :=
  let row2 := if border then
      re_end_border_sub (if row.data.head? == some '|' then ⟨row.data.drop 1⟩ else row)
    else row
  tableSplit row2

/-- Column alignment parsed from the separator row. -/
inductive Alignment where
  | center
  | left
  | right
deriving DecidableEq, Repr

/-- The alignment loop of `TableProcessor.run` (lines 83-93). -/
def computeAlign (separator : List String) : List (Option Alignment) :=
  separator.map (fun c0 =>
    let c := stripSpaces c0
    if c.data.head? == some ':' && c.data.getLast? == some ':' then some .center
    else if c.data.head? == some ':' then some .left
    else if c.data.getLast? == some ':' then some .right
    else none)

/-- An `xml.etree` element as built by the tables extension. -/
inductive El where
  | mk (tag : String) (attrs : List (String × String)) (text : Option String)
       (children : List El)

/-- The tag of an element. -/
def El.tag : El → String
  | .mk t _ _ _ => t

/-- The attributes of an element. -/
def El.attrs : El → List (String × String)
  | .mk _ a _ _ => a

/-- The text of an element. -/
def El.text : El → Option String
  | .mk _ _ t _ => t

/-- The children of an element. -/
def El.children : El → List El
  | .mk _ _ _ c => c

/-- `TableProcessor._build_empty_row` (lines 107-113): one empty `td`
per alignment column. -/
def _build_empty_row (align : List (Option Alignment)) : El :=
  .mk "tr" [] none (align.map (fun _ => .mk "td" [] none []))

/-- The attribute set by `_build_row` for an aligned cell, under the
`use_align_attribute` configuration (lines 130-134). -/
def alignAttrs (useAlignAttribute : Bool) : Option Alignment → List (String × String)
  | none => []
  | some a =>
    let v := match a with
      | .center => "center"
      | .left => "left"
      | .right => "right"
    if useAlignAttribute then [("align", v)]
    else [("style", "text-align: " ++ v ++ ";")]

/-- `TableProcessor._build_row` (lines 115-134): one cell per alignment
column (`for i, a in enumerate(align)`), `th` under a `thead` parent;
a missing cell (IndexError) gets empty text, extra cells are ignored. -/
def _build_row (border : Bool) (row : String) (parentTag : String)
    (align : List (Option Alignment)) (useAlignAttribute : Bool) : El :=
  let tag := if parentTag == "thead" then "th" else "td"
  let cells := _split_row border row
  .mk "tr" [] none
    (align.enum.map (fun ia =>
      El.mk tag (alignAttrs useAlignAttribute ia.2)
        (some (stripSpaces (cells.getD ia.1 ""))) []))

/-- `TableProcessor.run` (lines 76-105).  `border` and `separator` are
the instance attributes set by the preceding `test` call.  The Python
method has no `return` statement, so its return value is `None`,
modelled as `Option.none` in the first component; the second component
is the mutated blocks queue and the third the built `table` element. -/
def tableRun (border : Bool) (separator : List String) (useAlignAttribute : Bool)
    (blocks : List String) : Option Bool × List String × Option El :=
  match blocks with
  | [] => (none, [], none)
  | b :: rest =>
    let block := splitNl b
    let header := stripSpaces (block.headD "")
    let rows := if block.length < 3 then [] else block.drop 2
    let align := computeAlign separator
    let bodyRows := if rows.length == 0 then [_build_empty_row align]
      else rows.map (fun r => _build_row border (stripSpaces r) "tbody" align useAlignAttribute)
    let table : El := .mk "table" [] none
      [.mk "thead" [] none [_build_row border header "thead" align useAlignAttribute],
       .mk "tbody" [] none bodyRows]
    (none, rest, some table)

/-- `TableProcessor.test` (lines 40-74): returns whether the block is a
table, together with the `border` flag and `separator` row it stores on
the instance for the following `run`. -/
def tableTest (block : String) : Bool × Bool × List String :=
  let rows := (splitNl block).map stripSpaces
  if rows.length > 1 then
    let header0 := rows.headD ""
    let border := (header0.data.head? == some '|') || re_end_border_matches header0
    let row0_len := (_split_row border header0).length
    let is_table1 := decide (row0_len > 1)
    let is_table2 :=
      if !is_table1 && row0_len == 1 && border then
        (rows.drop 1).all (fun r => (r.data.head? == some '|') || re_end_border_matches r)
      else is_table1
    if is_table2 then
      let sep := _split_row border (rows.getD 1 "")
      let ok := sep.length == row0_len
        && (String.join sep).data.all (fun ch => ch == '|' || ch == ':' || ch == '-' || ch == ' ')
      (ok, border, if ok then sep else [])
    else (false, border, [])
  else (false, false, [])

/-- `test` followed by `run` as the block parser would call them:
`none` when `test` rejects the head block. -/
def tableProcess (useAlignAttribute : Bool) (blocks : List String) :
    Option (Option Bool × List String × Option El) :=
  match blocks with
  | [] => none
  | b :: _ =>
    let tbs := tableTest b
    if tbs.1 then some (tableRun tbs.2.1 tbs.2.2 useAlignAttribute blocks) else none

/-! ### Registry (`markdown.util.Registry` is not among this
repository's source files; modelled from the spec §3 and §4.1) -/

/-- Modelled from the spec: a registry entry — unique name, stored
item, numeric priority (arbitrary finite numbers, fractional included,
modelled as rationals). -/
structure RegEntry (α : Type) where
  name : String
  item : α
  priority : ℚ

/-- Modelled from the spec: the registry keeps its entries in
registration order; every read sorts on demand (the lazy dirty flag is
an internal optimization invisible to reads). -/
structure Registry (α : Type) where
  entries : List (RegEntry α)

/-- Modelled from the spec: `register(item, name, priority)` — a name
that already exists is replaced (removed, then appended as the most
recent registration). -/
def Registry.register (r : Registry α) (item : α) (name : String) (priority : ℚ) :
    Registry α :=
  ⟨(r.entries.filter (fun e => e.name != name)) ++ [⟨name, item, priority⟩]⟩

/-- Modelled from the spec: `deregister(name, strict)` — remove by
name; absence is an error (`none`) in strict mode, a no-op otherwise. -/
def Registry.deregister (r : Registry α) (name : String) (strict : Bool) :
    Option (Registry α) :=
  if r.entries.any (fun e => e.name == name) then
    some ⟨r.entries.filter (fun e => e.name != name)⟩
  else if strict then none
  else some r

/-- Entries tagged with registration recency: the position in the
registration-ordered list (a later position was registered later). -/
def Registry.keyed (r : Registry α) : List (Nat × RegEntry α) := r.entries.enum

/-- Modelled from the spec: the iteration order — priority descending,
ties broken most-recent-registration-first. -/
def regOrder (x y : Nat × RegEntry α) : Prop :=
  y.2.priority < x.2.priority ∨ (x.2.priority = y.2.priority ∧ y.1 ≤ x.1)

instance regOrderDecidable {α : Type} : DecidableRel (regOrder (α := α)) := fun x y => by
  unfold regOrder
  exact inferInstance

instance regOrderTotal {α : Type} : IsTotal (Nat × RegEntry α) regOrder :=
  ⟨fun x y => by
    unfold regOrder
    rcases lt_trichotomy x.2.priority y.2.priority with h | h | h
    · exact Or.inr (Or.inl h)
    · rcases Nat.le_total y.1 x.1 with hn | hn
      · exact Or.inl (Or.inr ⟨h, hn⟩)
      · exact Or.inr (Or.inr ⟨h.symm, hn⟩)
    · exact Or.inl (Or.inl h)⟩

instance regOrderTrans {α : Type} : IsTrans (Nat × RegEntry α) regOrder :=
  ⟨fun x y z hxy hyz => by
    unfold regOrder at hxy hyz ⊢
    rcases hxy with h1 | ⟨e1, n1⟩
    · rcases hyz with h2 | ⟨e2, n2⟩
      · exact Or.inl (h2.trans h1)
      · exact Or.inl (e2 ▸ h1)
    · rcases hyz with h2 | ⟨e2, n2⟩
      · exact Or.inl (by rw [e1]; exact h2)
      · exact Or.inr ⟨e1.trans e2, n2.trans n1⟩⟩

/-- The sorted view every read of the registry goes through. -/
def Registry.sortedKeyed (r : Registry α) : List (Nat × RegEntry α) :=
  List.insertionSort regOrder r.keyed

/-- Iteration yields the items in sorted order. -/
def Registry.iter (r : Registry α) : List α :=
  r.sortedKeyed.map (fun x => x.2.item)

/-- Index of the first element satisfying a predicate. -/
def findIdxAux (p : β → Bool) : List β → Option Nat
  | [] => none
  | b :: l => if p b then some 0 else (findIdxAux p l).map (· + 1)

/-- Modelled from the spec: `get_index_for_name` — the index of the
named entry in the sorted iteration order (`none` models the strict
`ValueError` when the name is absent). -/
def Registry.get_index_for_name (r : Registry α) (name : String) : Option Nat :=
  findIdxAux (fun x => x.2.name == name) r.sortedKeyed

/-- One registry operation. -/
inductive RegOp (α : Type) where
  | register (item : α) (name : String) (priority : ℚ)
  | deregister (name : String) (strict : Bool)

/-- Apply one operation; a strict deregister of an absent name fails. -/
def applyOp (r : Registry α) : RegOp α → Option (Registry α)
  | .register it n p => some (r.register it n p)
  | .deregister n s => r.deregister n s

/-- Apply a sequence of operations left to right. -/
def applyOps : Registry α → List (RegOp α) → Option (Registry α)
  | r, [] => some r
  | r, op :: ops =>
    match applyOp r op with
    | none => none
    | some r2 => applyOps r2 ops

/-- The registry reached from the empty registry by a sequence of
operations. -/
def buildRegistry (ops : List (RegOp α)) : Option (Registry α) :=
  applyOps ⟨[]⟩ ops

/-! ### Abbreviations extension (`markdown/extensions/abbr.py`,
`AbbrBlockprocessor.run`) -/

/-- The data of a successful `self.RE.search(block)`: span and the
`abbr`/`title` groups.  The regex itself is Python's stdlib `re`; the
search is passed in as an oracle parameter to `abbrRun`. -/
structure AbbrMatch where
  start : Nat
  stop : Nat
  abbr : String
  title : String

/-- Python dict assignment `d[k] = v` on an association list. -/
def assocSet : List (String × String) → String → String → List (String × String)
  | [], k, v => [(k, v)]
  | (k0, v0) :: rest, k, v =>
    if k0 == k then (k, v) :: rest else (k0, v0) :: assocSet rest k v

/-- Python `str.strip()`. -/
def pyStripWs (s : String) : String := ⟨stripWs s.data⟩

/-- Python `str.lstrip('\n')`. -/
def pyLstripNl (s : String) : String := ⟨s.data.dropWhile (· == '\n')⟩

/-- Python `str.rstrip('\n')`. -/
def pyRstripNl (s : String) : String := ⟨(s.data.reverse.dropWhile (· == '\n')).reverse⟩

/-- `AbbrBlockprocessor.run` (lines 155-177): pop the head block; on a
match record the abbreviation (`use_last_abbr` governs overwrites) and
push back the content before/after the match; on no match restore the
block and return `False`.  Returns the Python return value, the mutated
blocks queue and the abbreviation mapping. -/
def abbrRun (use_last_abbr : Bool) (abbrs : List (String × String))
    (search : String → Option AbbrMatch) (blocks : List String) :
    Option Bool × List String × List (String × String) :=
  match blocks with
  | [] => (none, [], abbrs)
  | block :: rest =>
    match search block with
    | none => (some false, block :: rest, abbrs)
    | some m =>
      let abbr := pyStripWs m.abbr
      let title := pyStripWs m.title
      let abbrs2 := if use_last_abbr || !(abbrs.any (fun kv => kv.1 == abbr))
                    then assocSet abbrs abbr title else abbrs
      let after := pySliceFrom block m.stop
      let before := pySliceStr block 0 m.start
      let q1 := if !(stripWs after.data).isEmpty then pyLstripNl after :: rest else rest
      let q2 := if !(stripWs before.data).isEmpty then pyRstripNl before :: q1 else q1
      (some true, q2, abbrs2)

/-! ### The inline tree processor (modelled from the spec §3, §4.5 and
§4.7; `markdown/treeprocessors.py`, `markdown/inlinepatterns.py` and
`markdown/serializers.py` are not among this repository's sources — the
behavior is pinned by `testAtomicString` and `TestAncestorExclusion`) -/

/-- An element text or tail value: a string carrying the atomic
("do not re-parse as inline") flag of `markdown.util.AtomicString`
(spec §9: "an element value is `(atomic: bool, body: string)`"). -/
structure MString where
  atomic : Bool
  body : String
deriving DecidableEq, Repr

mutual
/-- A document-tree element: tag, attributes, text, tail, children. -/
inductive IElement where
  | mk (tag : String) (attrs : List (String × String)) (text : Option MString)
       (tail : Option MString) (children : IForest)
/-- A list of sibling elements. -/
inductive IForest where
  | nil
  | cons (e : IElement) (f : IForest)
end

/-- The tag of an element. -/
def IElement.tagOf : IElement → String
  | .mk t _ _ _ _ => t

/-- The text of an element. -/
def IElement.textOf : IElement → Option MString
  | .mk _ _ t _ _ => t

/-- The tail of an element. -/
def IElement.tailOf : IElement → Option MString
  | .mk _ _ _ t _ => t

/-- The children of an element. -/
def IElement.childrenOf : IElement → IForest
  | .mk _ _ _ _ c => c

/-- Replace the tail of an element. -/
def IElement.setTail : IElement → Option MString → IElement
  | .mk tg a tx _ c, t2 => .mk tg a tx t2 c

/-- Concatenation of sibling lists. -/
def IForest.append : IForest → IForest → IForest
  | .nil, f => f
  | .cons e f1, f => .cons e (f1.append f)

/-- Modelled from the spec: handling of one text slot by the inline
engine — a string flagged atomic is skipped (returned unchanged, no
elements spliced); a plain string is handed to the pattern engine `p`,
which returns the replacement text and the elements to splice. -/
def processText (p : String → Option MString × IForest) :
    Option MString → Option MString × IForest
  | none => (none, .nil)
  | some s => if s.atomic then (some s, .nil) else p s.body

mutual
/-- Modelled from the spec: the inline tree processor on one element —
rewrite its text, splice the produced elements before the existing
children and recurse into them; the element's own tail is rewritten by
the walker of the sibling list containing it. -/
def inlineEl (p : String → Option MString × IForest) : IElement → IElement
  | .mk tg a tx tl c =>
    .mk tg a (processText p tx).1 tl ((processText p tx).2.append (inlineF p c))
/-- Modelled from the spec: the walker over a sibling list; each
element's tail is rewritten, with the spliced elements inserted right
after it. -/
def inlineF (p : String → Option MString × IForest) : IForest → IForest
  | .nil => .nil
  | .cons e f =>
    .cons ((inlineEl p e).setTail (processText p e.tailOf).1)
      ((processText p e.tailOf).2.append (inlineF p f))
end

mutual
/-- Correspondence between the inline run's input and output: every
atomic text and tail slot is preserved verbatim, and the original
children reappear in order (newly spliced elements may be interleaved). -/
inductive AtomEq : IElement → IElement → Prop where
  | mk {tg tg2 : String} {a a2 : List (String × String)}
       {tx tx2 tl tl2 : Option MString} {c c2 : IForest} :
      (∀ s : MString, tx = some s → s.atomic = true → tx2 = some s) →
      (∀ s : MString, tl = some s → s.atomic = true → tl2 = some s) →
      AtomSub c c2 →
      AtomEq (.mk tg a tx tl c) (.mk tg2 a2 tx2 tl2 c2)
/-- The input siblings appear in order among the output siblings, each
related by `AtomEq`. -/
inductive AtomSub : IForest → IForest → Prop where
  | nil (f : IForest) : AtomSub .nil f
  | skip {f f2 : IForest} (e : IElement) : AtomSub f f2 → AtomSub f (.cons e f2)
  | cons {e e2 : IElement} {f f2 : IForest} :
      AtomEq e e2 → AtomSub f f2 → AtomSub (.cons e f) (.cons e2 f2)
end

/-- Escape `&`, `<`, `>` in text content (spec §4.7). -/
def escapeChar (c : Char) : List Char :=
  if c = '&' then ['&', 'a', 'm', 'p', ';']
  else if c = '<' then ['&', 'l', 't', ';']
  else if c = '>' then ['&', 'g', 't', ';']
  else [c]

/-- Text-content escaping. -/
def escapeText (s : String) : String := ⟨(s.data.map escapeChar).join⟩

/-- Attribute-value escaping: additionally `"` (spec §4.7). -/
def escapeAttrChar (c : Char) : List Char :=
  if c = '"' then ['&', 'q', 'u', 'o', 't', ';'] else escapeChar c

/-- Attribute-value escaping. -/
def escapeAttr (s : String) : String := ⟨(s.data.map escapeAttrChar).join⟩

/-- The serialized attribute list. -/
def attrsString (a : List (String × String)) : String :=
  String.join (a.map (fun kv => " " ++ kv.1 ++ "=\"" ++ escapeAttr kv.2 ++ "\""))

/-- Serialized form of a text or tail slot: the atomic flag is not
consulted — an atomic string serializes exactly like a plain one. -/
def mstr : Option MString → String
  | none => ""
  | some s => escapeText s.body

mutual
/-- Modelled from the spec: the serializer — open tag with attributes,
text, children, closing tag, then the tail. -/
def serializeEl : IElement → String
  | .mk tg a tx tl c =>
    "<" ++ tg ++ attrsString a ++ ">" ++ mstr tx ++ serializeF c
      ++ "</" ++ tg ++ ">" ++ mstr tl
/-- Serialization of a sibling list. -/
def serializeF : IForest → String
  | .nil => ""
  | .cons e f => serializeEl e ++ serializeF f
end

/-! ### Ancestor exclusion (modelled from the spec §4.5) -/

/-- Modelled from the spec: one text slot under an ancestor chain — an
atomic string is skipped, a match inside an element whose ancestor
chain contains an excluded tag is rejected (the text stays literal),
and otherwise the pattern transformation `f` fires. -/
def applyUnlessExcluded (ex : List String) (f : String → String)
    (chain : List String) : Option MString → Option MString
  | none => none
  | some s =>
    if s.atomic then some s
    else if chain.any (fun t => ex.contains t) then some s
    else some ⟨s.atomic, f s.body⟩

mutual
/-- Modelled from the spec: the inline walk with an explicit ancestor
chain.  An element's text sits inside the element, so its chain
includes the element's own tag; an element's tail sits in the parent's
content, so the sibling walker rewrites it under the parent's chain. -/
def runAncEl (ex : List String) (f : String → String) (anc : List String) :
    IElement → IElement
  | .mk tg a tx tl c =>
    .mk tg a (applyUnlessExcluded ex f (anc ++ [tg]) tx) tl
      (runAncF ex f (anc ++ [tg]) c)
/-- The sibling walker of the ancestor-exclusion run. -/
def runAncF (ex : List String) (f : String → String) (anc : List String) :
    IForest → IForest
  | .nil => .nil
  | .cons e rest =>
    .cons ((runAncEl ex f anc e).setTail (applyUnlessExcluded ex f anc e.tailOf))
      (runAncF ex f anc rest)
end

/-- The `i`-th element of a sibling list. -/
def forestGet : IForest → Nat → Option IElement
  | .nil, _ => none
  | .cons e _, 0 => some e
  | .cons _ f, n + 1 => forestGet f n

/-- Navigate a child-index path down the tree. -/
def navigate : IElement → List Nat → Option IElement
  | el, [] => some el
  | el, i :: p => (forestGet el.childrenOf i).bind (fun c => navigate c p)

/-- The tags along a child-index path, the target element included. -/
def tagsAlong : IElement → List Nat → Option (List String)
  | el, [] => some [el.tagOf]
  | el, i :: p =>
    (forestGet el.childrenOf i).bind
      (fun c => (tagsAlong c p).map (fun ts => el.tagOf :: ts))

/-- Outcome of the tokenizer at a `&` that is not a numeric `&#` reference. -/
inductive AmpOutcome where
  | entity (name : String) (len : Nat)
  | buffered
  | literal
deriving DecidableEq, Repr

/-- Modelled from the spec: the tokenizer's dispatch at a named character
reference — `entityref` is tried first, then `incomplete` (which, when it
matches at the end of the buffer, would hold back the text as incomplete
input), and otherwise the `&` is emitted as literal data.  The regexes
themselves are the patched ones from `markdown/htmlparser.py` lines 34-41. -/
def handle_amp (s : List Char) : AmpOutcome :=
  match entityref_match s with
  | some (n, k) => .entity n k
  | none =>
    match incomplete_match s with
    | some _ => .buffered
    | none => .literal

end MarkdownSpec

namespace MarkdownSpec

/-! ### Theorems: CLI (C9) and tokenizer regexes (C7) -/

/-- C9: `parse_options` with an empty argument list returns the defaults:
`output_format = 'xhtml'`, `lazy_ol = True`, `extensions = []`, and
`input` and `output` absent; `-o html` sets only `output_format` to
`'html'`; `-n` sets only `lazy_ol` to `False`. -/
theorem parse_options_defaults (loadConfig : String → Option (List (String × List (String × String)))) :
    parse_options loadConfig [] =
      some (⟨none, none, [], [], none, "xhtml", true⟩, 50)
    ∧ parse_options loadConfig ["-o", "html"] =
      some (⟨none, none, [], [], none, "html", true⟩, 50)
    ∧ parse_options loadConfig ["-n"] =
      some (⟨none, none, [], [], none, "xhtml", false⟩, 50) := by
  refine ⟨rfl, rfl, rfl⟩

/-- C7 helper: where `piclose_find` reports a match, the text really holds
`?` immediately followed by `>` — a bare `>` never terminates. -/
theorem piclose_find_sound (s : List Char) : ∀ k, piclose_find s = some k →
    s.get? k = some '?' ∧ s.get? (k + 1) = some '>' := by
  induction s with
  | nil => intro k h; simp [piclose_find] at h
  | cons a rest ih =>
    intro k h
    rw [piclose_find] at h
    split at h
    · next hc =>
      cases h
      obtain ⟨rfl, hb⟩ := hc
      cases rest with
      | nil => simp at hb
      | cons b tl =>
        have hb2 : b = '>' := by simpa using hb
        subst hb2
        exact ⟨rfl, rfl⟩
    · next hc =>
      cases hr : piclose_find rest with
      | none => rw [hr] at h; simp at h
      | some j =>
        rw [hr] at h
        simp only [Option.map_some'] at h
        cases h
        exact ih j hr

/-- C7 helper: when the patched `entityref` regex matches, the final
matched character is the mandatory semicolon. -/
theorem entityref_match_semicolon (s : List Char) (n : String) (k : Nat) :
    entityref_match s = some (n, k) → s.get? (k - 1) = some ';' := by
  intro h
  match s with
  | [] => exact absurd h (by simp [entityref_match])
  | [a] => exact absurd h (by simp [entityref_match])
  | a :: c :: rest =>
    rw [entityref_match] at h
    split at h
    · next hac =>
      split at h
      · next hsemi =>
        cases h
        show (a :: c :: rest).get? ((rest.takeWhile entityTailChar).length + 2) = some ';'
        have hget : (a :: c :: rest).get? ((rest.takeWhile entityTailChar).length + 2) =
            rest.get? (rest.takeWhile entityTailChar).length := by
          simp [List.get?]
        rw [hget]
        have hdrop := List.get?_drop rest (rest.takeWhile entityTailChar).length 0
        rw [Nat.add_zero] at hdrop
        rw [← hdrop, List.get?_zero]
        exact hsemi
      · cases h
    · cases h

/-- C7 helper: a text with no semicolon at all is never recognized as an
entity reference (it will be emitted as literal data). -/
theorem entityref_match_needs_semicolon (s : List Char) (h : ';' ∉ s) :
    entityref_match s = none := by
  cases he : entityref_match s with
  | none => rfl
  | some v =>
    obtain ⟨n, k⟩ := v
    have := entityref_match_semicolon s n k he
    exact absurd (List.get?_mem this) h

/-- C7 helper: because `incomplete` was monkeypatched to be the very
regex as `entityref`, the buffering branch of the tokenizer can never
be taken. -/
theorem handle_amp_never_buffered (s : List Char) : handle_amp s ≠ .buffered := by
  rw [handle_amp]
  cases he : entityref_match s with
  | some v => simp
  | none => rw [show incomplete_match s = none from he]; simp

/-- C7: the raw-HTML tokenizer closes a processing instruction only at the
two-character terminator `?>` (never at a bare `>`), recognizes a named
character reference only when terminated by `;`, and an entity reference
without the closing semicolon is never buffered as incomplete input —
it falls through to literal data. -/
theorem tokenizer_terminators :
    (∀ s k, piclose_find s = some k →
        s.get? k = some '?' ∧ s.get? (k + 1) = some '>')
    ∧ (∀ s n k, entityref_match s = some (n, k) → s.get? (k - 1) = some ';')
    ∧ (∀ s, ';' ∉ s → entityref_match s = none ∧ handle_amp s = .literal)
    ∧ (∀ s, handle_amp s ≠ .buffered) := by
  refine ⟨fun s k h => piclose_find_sound s k h,
          fun s n k h => entityref_match_semicolon s n k h,
          fun s h => ⟨entityref_match_needs_semicolon s h, ?_⟩,
          fun s => handle_amp_never_buffered s⟩
  rw [handle_amp, entityref_match_needs_semicolon s h,
      show incomplete_match s = none from entityref_match_needs_semicolon s h]

/-- C7 witness: the theorem applied at concrete inputs — `?>` is found at
index 0 of `"?>"`, the match of `"&amp;x"` ends at the semicolon, and the
semicolon-free text `"&amp"` is literal data, never buffered. -/
theorem tokenizer_terminators_witness :
    (['?', '>'].get? 0 = some '?' ∧ ['?', '>'].get? 1 = some '>')
    ∧ ['&', 'a', 'm', 'p', ';', 'x'].get? (5 - 1) = some ';'
    ∧ entityref_match ['&', 'a', 'm', 'p'] = none
    ∧ handle_amp ['&', 'a', 'm', 'p'] = .literal
    ∧ handle_amp ['&', 'a', 'm', 'p'] ≠ .buffered := by
  refine ⟨tokenizer_terminators.1 ['?', '>'] 0 (by decide),
          tokenizer_terminators.2.1 ['&', 'a', 'm', 'p', ';', 'x'] "amp" 5 (by decide),
          (tokenizer_terminators.2.2.1 ['&', 'a', 'm', 'p'] (by decide)).1,
          (tokenizer_terminators.2.2.1 ['&', 'a', 'm', 'p'] (by decide)).2,
          tokenizer_terminators.2.2.2 ['&', 'a', 'm', 'p']⟩

/-! ### Theorems: the raw-HTML extractor (C1, C5, C6) -/

theorem runEvents_cons (st : ExtractorState) (e : Event) (es : List Event) :
    runEvents st (e :: es) = runEvents (stepEvent st e) es := rfl

theorem runEvents_append (st : ExtractorState) (es1 es2 : List Event) :
    runEvents st (es1 ++ es2) = runEvents (runEvents st es1) es2 :=
  List.foldl_append _ _ _ _

theorem string_data_append (a b : String) : (a ++ b).data = a.data ++ b.data := rfl

/-- Inside a raw region (`inraw` set, tail mode off, non-empty tag
stack), a properly matched event sequence is accumulated verbatim into
`_cache` and nothing else in the state changes. -/
theorem matched_run (es : List Event) (hm : Matched es) :
    ∀ st : ExtractorState, st.inraw = true → st.intail = false → st.stack ≠ [] →
    runEvents st es = { st with cache := st.cache ++ es.map eventText } := by
  induction hm with
  | nil =>
    intro st _ _ _
    simp [runEvents]
  | dat s es _ ih =>
    intro st h1 h2 h3
    rw [runEvents_cons]
    have hstep : stepEvent st (.data s) = { st with cache := st.cache ++ [s] } := by
      simp [stepEvent, handle_data, h1, h2]
    rw [hstep, ih { st with cache := st.cache ++ [s] } h1 h2 h3]
    simp [eventText, List.append_assoc]
  | emp d ib als bf es _ ih =>
    intro st h1 h2 h3
    rw [runEvents_cons]
    have hstep : stepEvent st (.emptyTag d ib als bf) =
        { st with cache := st.cache ++ [d] } := by
      simp [stepEvent, handle_empty_tag, h1]
    rw [hstep, ih { st with cache := st.cache ++ [d] } h1 h2 h3]
    simp [eventText, List.append_assoc]
  | tag tg t t2 ib als bf bf2 inner rest hne _ _ ih1 ih2 =>
    intro st h1 h2 h3
    rw [runEvents_cons]
    have hstep : stepEvent st (.startTag tg t ib als bf) =
        { st with stack := tg :: st.stack, cache := st.cache ++ [t] } := by
      simp [stepEvent, handle_starttag, hne, h1, h2]
    rw [hstep, runEvents_append,
        ih1 { st with stack := tg :: st.stack, cache := st.cache ++ [t] }
          h1 h2 (by simp), runEvents_cons]
    have hend : stepEvent
        { st with stack := tg :: st.stack, cache := (st.cache ++ [t]) ++ inner.map eventText }
        (.endTag tg t2 bf2) =
        { st with stack := st.stack,
                  cache := ((st.cache ++ [t]) ++ inner.map eventText) ++ [t2] } := by
      cases hs : st.stack with
      | nil => exact absurd hs h3
      | cons hd tl =>
        simp [stepEvent, handle_endtag, popUntil, List.isEmpty, h1]
    rw [hend,
        ih2 { st with cache := ((st.cache ++ [t]) ++ inner.map eventText) ++ [t2] } h1 h2 h3]
    simp [eventText, List.append_assoc]

theorem dropWhile_newline_wrap (l : List Char) :
    (((('\n' :: (l ++ ['\n', '\n'])).dropWhile (· == '\n')).reverse.dropWhile
        (· == '\n')).reverse) =
    ((l.dropWhile (· == '\n')).reverse.dropWhile (· == '\n')).reverse := by
  have h1 : ('\n' :: (l ++ ['\n', '\n'])).dropWhile (· == '\n') =
      (l ++ ['\n', '\n']).dropWhile (· == '\n') := by
    simp [List.dropWhile]
  rw [h1, List.dropWhile_append]
  cases he : ((l.dropWhile (· == '\n')).isEmpty) with
  | true =>
    have hl : l.dropWhile (· == '\n') = [] := by
      simpa [List.isEmpty_iff] using he
    simp [he, hl, List.dropWhile]
  | false =>
    simp only [he, Bool.false_eq_true, if_false]
    have : ((l.dropWhile (· == '\n')) ++ ['\n', '\n']).reverse =
        '\n' :: '\n' :: (l.dropWhile (· == '\n')).reverse := by
      simp
    rw [this]
    simp [List.dropWhile]

/-- Wrapping a string in the `\n` ... `\n\n` the extractor adds around a
stashed block does not change its newline-normalized form. -/
theorem normalizeNewlines_wrap (H : String) :
    normalizeNewlines ("\n" ++ H ++ "\n\n") = normalizeNewlines H := by
  have hdata : ("\n" ++ H ++ "\n\n").data = '\n' :: (H.data ++ ['\n', '\n']) := by
    rw [string_data_append, string_data_append]
    rfl
  rw [normalizeNewlines, normalizeNewlines, hdata]
  exact congrArg String.mk (dropWhile_newline_wrap H.data)

/-- C1: for every well-formed raw HTML block — a non-empty block-level
start tag at the start of a line followed by properly matched content and
the matching end tag — the extractor stashes the source text verbatim
(inline markup such as `*raw*` included), the clean document is exactly a
placeholder wrapped in blank separators, and the restored conversion
output equals the input up to trailing-newline normalization. -/
theorem raw_html_round_trip (tg t t2 : String) (bf : Bool) (inner : List Event)
    (hne : tg ∉ empty_tags) (hm : Matched inner) :
    (closeExtractor (runEvents initState
        (.startTag tg t true true bf :: (inner ++ [.endTag tg t2 false])))).stash
      = [renderEvents (.startTag tg t true true bf :: (inner ++ [.endTag tg t2 false]))]
    ∧ (closeExtractor (runEvents initState
        (.startTag tg t true true bf :: (inner ++ [.endTag tg t2 false])))).cleandoc
      = [.text "\n", .placeholder 0, .text "\n\n"]
    ∧ normalizeNewlines (convertRaw
        (.startTag tg t true true bf :: (inner ++ [.endTag tg t2 false])))
      = normalizeNewlines (renderEvents
        (.startTag tg t true true bf :: (inner ++ [.endTag tg t2 false]))) := by
  have hstep : stepEvent initState (.startTag tg t true true bf) =
      { inraw := true, intail := false, stack := [tg], cache := [t],
        cleandoc := [.text "\n"], stash := [] } := by
    simp [stepEvent, handle_starttag, hne, initState]
  have hrun : runEvents initState
      (.startTag tg t true true bf :: (inner ++ [.endTag tg t2 false])) =
      { inraw := false, intail := true, stack := [], cache := [],
        cleandoc := [.text "\n", .placeholder 0, .text "\n\n"],
        stash := [String.join (t :: (inner.map eventText ++ [t2]))] } := by
    rw [runEvents_cons, hstep, runEvents_append,
        matched_run inner hm
          { inraw := true, intail := false, stack := [tg], cache := [t],
            cleandoc := [.text "\n"], stash := [] } rfl rfl (by simp)]
    simp only [runEvents, List.foldl_cons, List.foldl_nil, stepEvent, handle_endtag]
    simp [popUntil, List.isEmpty, String.join]
  have hstash : String.join (t :: (inner.map eventText ++ [t2])) =
      renderEvents (.startTag tg t true true bf :: (inner ++ [.endTag tg t2 false])) := by
    simp [renderEvents, eventText]
  have hclose : closeExtractor (runEvents initState
      (.startTag tg t true true bf :: (inner ++ [.endTag tg t2 false]))) =
      { inraw := false, intail := true, stack := [], cache := [],
        cleandoc := [.text "\n", .placeholder 0, .text "\n\n"],
        stash := [String.join (t :: (inner.map eventText ++ [t2]))] } := by
    rw [hrun]
    simp [closeExtractor, List.isEmpty]
  refine ⟨by rw [hclose, hstash], by rw [hclose], ?_⟩
  rw [convertRaw, hrun]
  show normalizeNewlines
      (String.join ["\n", String.join (t :: (inner.map eventText ++ [t2])), "\n\n"]) = _
  have hjoin : String.join ["\n", String.join (t :: (inner.map eventText ++ [t2])), "\n\n"] =
      "\n" ++ String.join (t :: (inner.map eventText ++ [t2])) ++ "\n\n" := rfl
  rw [hjoin, hstash, normalizeNewlines_wrap]

/-- C1 witness: the round trip at the concrete raw block
`<p>A *raw* paragraph.</p>` of the repository's `test_raw_paragraph` /
`test_raw_skip_inline_markdown` tests. -/
theorem raw_html_round_trip_witness :
    (closeExtractor (runEvents initState
        [.startTag "p" "<p>" true true false, .data "A *raw* paragraph.",
         .endTag "p" "</p>" false])).stash = ["<p>A *raw* paragraph.</p>"]
    ∧ normalizeNewlines (convertRaw
        [.startTag "p" "<p>" true true false, .data "A *raw* paragraph.",
         .endTag "p" "</p>" false]) = "<p>A *raw* paragraph.</p>" := by
  have h := raw_html_round_trip "p" "<p>" "</p>" false [.data "A *raw* paragraph."]
    (by decide) (Matched.dat _ _ Matched.nil)
  exact ⟨h.1.trans (by rfl), h.2.2.trans (by rfl)⟩

/-- C5 counterexample: on the input `<p>x</p>tail <div>y</div>` the
`<div>` start tag sits at offset 13 of its line, so `at_line_start` is
false and non-whitespace precedes it on its line; the extractor is not
inside raw content (the `<p>` block closed) — yet tail mode is active
and `handle_starttag` does begin a new raw region (`inraw` flips to
true), contradicting the claim that such a tag never begins one. -/
theorem raw_region_starts_midline_in_tail :
    at_line_start "<p>x</p>tail <div>y</div>" 0 13 = false
    ∧ (runEvents initState
        [.startTag "p" "<p>" true true false, .data "x",
         .endTag "p" "</p>" (blank_line_matches "tail <div>y</div>")]).inraw = false
    ∧ (runEvents initState
        [.startTag "p" "<p>" true true false, .data "x",
         .endTag "p" "</p>" (blank_line_matches "tail <div>y</div>")]).intail = true
    ∧ (runEvents initState
        [.startTag "p" "<p>" true true false, .data "x",
         .endTag "p" "</p>" (blank_line_matches "tail <div>y</div>"), .data "tail ",
         .startTag "div" "<div>"
           true (at_line_start "<p>x</p>tail <div>y</div>" 0 13) false]).inraw = true := by
  decide

/-- C5 amended: `handle_starttag` begins a raw region for a block-level
tag (not in `empty_tags`) exactly when tail mode is active or the tag is
at the start of a line with the extractor not already inside raw
content; and `at_line_start` holds exactly at offset 0 or at an offset
of at most 3 whose preceding line characters are all whitespace. -/
theorem raw_region_start_condition (st : ExtractorState) (tag text rawdata : String)
    (lo off : Nat) (ib bf : Bool) (hne : tag ∉ empty_tags) :
    ((handle_starttag st tag text ib (at_line_start rawdata lo off) bf).inraw = true
      ↔ (st.inraw = true
        ∨ (ib = true ∧ (st.intail = true ∨ at_line_start rawdata lo off = true))))
    ∧ (at_line_start rawdata lo off = true
      ↔ (off = 0 ∨ (off ≤ 3 ∧ (pySlice rawdata lo off).all (·.isWhitespace) = true))) := by
  constructor
  · cases h1 : st.inraw <;> cases h2 : st.intail <;> cases hb : ib <;>
      cases hals : at_line_start rawdata lo off <;>
      simp [handle_starttag, hne, h1, h2, hals]
  · rw [at_line_start]
    by_cases h0 : off = 0
    · simp [h0]
    · by_cases h3 : off > 3
      · have : ¬ off ≤ 3 := by omega
        simp [h0, h3, this]
      · have : off ≤ 3 := by omega
        simp [h0, h3, this]

/-- C5 amended witness: a block start tag at two spaces of indent (all
whitespace) starts a region from the fresh state; the same tag at offset
13 of `<p>x</p>tail <div>y</div>` with tail mode off does not. -/
theorem raw_region_start_condition_witness :
    ((handle_starttag initState "div" "<div>"
        true (at_line_start "  <div>" 0 2) false).inraw = true
      ↔ (initState.inraw = true
        ∨ (true = true ∧ (initState.intail = true ∨ at_line_start "  <div>" 0 2 = true))))
    ∧ ((handle_starttag initState "div" "<div>"
        true (at_line_start "<p>x</p>tail <div>y</div>" 0 13) false).inraw = true
      ↔ (initState.inraw = true
        ∨ (true = true ∧ (initState.intail = true
            ∨ at_line_start "<p>x</p>tail <div>y</div>" 0 13 = true))))
    ∧ (handle_starttag initState "div" "<div>"
        true (at_line_start "  <div>" 0 2) false).inraw = true
    ∧ (handle_starttag initState "div" "<div>"
        true (at_line_start "<p>x</p>tail <div>y</div>" 0 13) false).inraw = false := by
  refine ⟨(raw_region_start_condition initState "div" "<div>" "  <div>" 0 2 true false
            (by decide)).1,
          (raw_region_start_condition initState "div" "<div>" "<p>x</p>tail <div>y</div>"
            0 13 true false (by decide)).1, by decide, by decide⟩

/-- C6 counterexample: after `<p>x</p>` followed by `"\nfoo"` no
non-whitespace follows on the end tag's line, yet tail mode is set
(because `blank_line_re` fails to match); and after `<p>x</p>tail` the
data `"tail"` seen in tail mode is appended to the clean document, not
to the stashed raw block, which keeps exactly `<p>x</p>`. -/
theorem tail_mode_not_same_line :
    blank_line_matches "\nfoo" = false
    ∧ nonWsOnSameLine "\nfoo" = false
    ∧ (runEvents initState
        [.startTag "p" "<p>" true true false, .data "x",
         .endTag "p" "</p>" (blank_line_matches "\nfoo")]).intail = true
    ∧ (runEvents initState
        [.startTag "p" "<p>" true true false, .data "x",
         .endTag "p" "</p>" (blank_line_matches "tail"), .data "tail"]).intail = true
    ∧ (runEvents initState
        [.startTag "p" "<p>" true true false, .data "x",
         .endTag "p" "</p>" (blank_line_matches "tail"), .data "tail"]).stash
      = ["<p>x</p>"]
    ∧ (runEvents initState
        [.startTag "p" "<p>" true true false, .data "x",
         .endTag "p" "</p>" (blank_line_matches "tail"), .data "tail"]).cleandoc
      = [.text "\n", .placeholder 0, .text "\n\n", .text "tail"] := by
  decide

/-- C6 amended: when a raw region closes, tail mode becomes true exactly
when the `blank_line_re` lookahead fails (otherwise a newline is added
to the stashed block instead); while tail mode is on, plain character
data is emitted to the clean document (not the stash) and clears tail
mode exactly when it contains a newline; empty-tag tokens seen in tail
mode are appended to the raw cache. -/
theorem tail_mode_behavior :
    (∀ (st : ExtractorState) (tag t : String) (bf : Bool),
      st.inraw = true → st.stack = [tag] →
      (handle_endtag st tag t bf).intail = (if bf then st.intail else true)
      ∧ (handle_endtag st tag t bf).stash
          = st.stash ++ [String.join ((st.cache ++ [t]) ++ if bf then ["\n"] else [])]
      ∧ (handle_endtag st tag t bf).inraw = false)
    ∧ (∀ (st : ExtractorState) (s : String), st.inraw = false →
      (handle_data st s).intail = (st.intail && !(s.data.contains '\n'))
      ∧ (handle_data st s).stash = st.stash
      ∧ (handle_data st s).cleandoc = st.cleandoc ++ [.text s])
    ∧ (∀ (st : ExtractorState) (d : String) (ib als bf : Bool),
      st.inraw = false → st.intail = true →
      (handle_empty_tag st d ib als bf).cache = st.cache ++ [d]
      ∧ (handle_empty_tag st d ib als bf).stash = st.stash) := by
  refine ⟨?_, ?_, ?_⟩
  · intro st tag t bf h1 h2
    cases bf <;> simp [handle_endtag, h1, h2, popUntil, List.isEmpty]
  · intro st s h1
    by_cases h3 : '\n' ∈ s.data <;> cases h2 : st.intail <;>
      simp [handle_data, h1, h2, h3, List.contains, List.elem_eq_mem]
  · intro st d ib als bf h1 h2
    simp [handle_empty_tag, h1, h2]

/-- C6 amended witness: the theorem applied at a concrete closing end
tag with a failing blank-line lookahead, concrete tail-mode data, and a
concrete empty tag in tail mode. -/
theorem tail_mode_behavior_witness :
    ((handle_endtag ⟨true, false, ["p"], ["<p>x"], [], []⟩ "p" "</p>" false).intail
        = (if false then false else true)
      ∧ (handle_endtag ⟨true, false, ["p"], ["<p>x"], [], []⟩ "p" "</p>" false).stash
        = [] ++ [String.join ((["<p>x"] ++ ["</p>"]) ++ if false then ["\n"] else [])])
    ∧ ((handle_data ⟨false, true, [], [], [], ["<p>x</p>"]⟩ "tail").intail
        = (true && !("tail".data.contains '\n'))
      ∧ (handle_data ⟨false, true, [], [], [], ["<p>x</p>"]⟩ "tail").cleandoc
        = [] ++ [.text "tail"])
    ∧ (handle_empty_tag ⟨false, true, [], [], [], []⟩ "<hr>" true false false).cache
        = [] ++ ["<hr>"] := by
  refine ⟨⟨(tail_mode_behavior.1 _ "p" "</p>" false rfl rfl).1,
           (tail_mode_behavior.1 _ "p" "</p>" false rfl rfl).2.1⟩,
          ⟨(tail_mode_behavior.2.1 _ "tail" rfl).1,
           (tail_mode_behavior.2.1 _ "tail" rfl).2.2⟩,
          (tail_mode_behavior.2.2 _ "<hr>" true false false rfl rfl).1⟩

/-! ### Theorems: block processor run protocol (C4) and table row widths (C10) -/

/-- C4 counterexample: on the table block `|a|b|\n|-|-|\n|1|2|` the
`test` method accepts and `run` consumes the head block, but the Python
method body of `TableProcessor.run` has no `return` statement — the
call returns `None`, not the boolean `True` the claim requires. -/
theorem table_run_returns_none :
    (tableProcess false ["|a|b|\n|-|-|\n|1|2|"]).isSome = true
    ∧ (tableProcess false ["|a|b|\n|-|-|\n|1|2|"]).map (fun r => r.1) = some Option.none
    ∧ (tableProcess false ["|a|b|\n|-|-|\n|1|2|"]).map (fun r => r.1) ≠ some (some true)
    ∧ (tableProcess false ["|a|b|\n|-|-|\n|1|2|"]).map (fun r => r.2.1) = some [] := by
  decide

/-- C4 amended: `AbbrBlockprocessor.run` returns a boolean — `False`
when the regex does not match, in which case the popped block is
restored and the queue (and abbreviation table) are exactly as before
the call, and `True` when it matches, consuming the head;
`TableProcessor.run` always consumes the head block but returns `None`
(no value) rather than a boolean — only an explicit `False` signals
decline, so `None` counts as success. -/
theorem blockprocessor_run_protocol :
    (∀ (ul : Bool) (ab : List (String × String)) (search : String → Option AbbrMatch)
        (b : String) (rest : List String), search b = none →
      abbrRun ul ab search (b :: rest) = (some false, b :: rest, ab))
    ∧ (∀ (ul : Bool) (ab : List (String × String)) (search : String → Option AbbrMatch)
        (b : String) (rest : List String) (m : AbbrMatch), search b = some m →
      (abbrRun ul ab search (b :: rest)).1 = some true)
    ∧ (∀ (border : Bool) (sep : List String) (ua : Bool) (b : String) (rest : List String),
      (tableRun border sep ua (b :: rest)).1 = Option.none
      ∧ (tableRun border sep ua (b :: rest)).2.1 = rest) := by
  refine ⟨?_, ?_, ?_⟩
  · intro ul ab search b rest h
    simp [abbrRun, h]
  · intro ul ab search b rest m h
    simp [abbrRun, h]
  · intro border sep ua b rest
    exact ⟨rfl, rfl⟩

/-- C4 amended witness: the protocol at concrete inputs — a failing
search restores the queue with `False`; a successful search returns
`True`; the concrete table run consumes its head and returns `None`. -/
theorem blockprocessor_run_protocol_witness :
    abbrRun true [] (fun _ => none) ["no refs here"] = (some false, ["no refs here"], [])
    ∧ (abbrRun true [] (fun _ => some ⟨0, 14, "HTML", "HyperText"⟩)
        ["*[HTML]: HyperText"]).1 = some true
    ∧ (tableRun true ["-", "-"] false ["|a|b|\n|-|-|\n|1|2|"]).1 = Option.none
    ∧ (tableRun true ["-", "-"] false ["|a|b|\n|-|-|\n|1|2|"]).2.1 = [] := by
  refine ⟨blockprocessor_run_protocol.1 true [] (fun _ => none) "no refs here" [] rfl,
          blockprocessor_run_protocol.2.1 true [] (fun _ => some ⟨0, 14, "HTML", "HyperText"⟩)
            "*[HTML]: HyperText" [] ⟨0, 14, "HTML", "HyperText"⟩ rfl,
          (blockprocessor_run_protocol.2.2 true ["-", "-"] false "|a|b|\n|-|-|\n|1|2|" []).1,
          (blockprocessor_run_protocol.2.2 true ["-", "-"] false "|a|b|\n|-|-|\n|1|2|" []).2⟩

/-- C10: every table row built by `TableProcessor` has exactly one cell
per separator column: the alignment list has one entry per separator
cell, `_build_row` emits one cell per alignment entry — taking the
`i`-th split cell's text (stripped) when present and empty text when
the row is short, ignoring split cells beyond the alignment width —
`_build_empty_row` emits one empty `td` per column, and a table block
with no body rows gets a single empty body row. -/
theorem table_row_width_invariant :
    (∀ sep : List String, (computeAlign sep).length = sep.length)
    ∧ (∀ (border : Bool) (row ptag : String) (align : List (Option Alignment)) (ua : Bool),
      (_build_row border row ptag align ua).children.length = align.length)
    ∧ (∀ (border : Bool) (row ptag : String) (align : List (Option Alignment)) (ua : Bool)
        (i : Nat) (a : Option Alignment), align.get? i = some a →
      (_build_row border row ptag align ua).children.get? i =
        some (El.mk (if ptag == "thead" then "th" else "td") (alignAttrs ua a)
          (some (stripSpaces ((_split_row border row).getD i ""))) []))
    ∧ (∀ align : List (Option Alignment),
      (_build_empty_row align).children.length = align.length
      ∧ (_build_empty_row align).children.all
          (fun c => c.tag == "td" && c.text.isNone && c.children.isEmpty) = true)
    ∧ (∀ (border : Bool) (sep : List String) (ua : Bool) (b : String) (rest : List String),
      (splitNl b).length < 3 →
      (tableRun border sep ua (b :: rest)).2.2 = some (.mk "table" [] none
        [.mk "thead" [] none
          [_build_row border (stripSpaces ((splitNl b).headD "")) "thead" (computeAlign sep) ua],
         .mk "tbody" [] none [_build_empty_row (computeAlign sep)]])) := by
  refine ⟨?_, ?_, ?_, ?_, ?_⟩
  · intro sep
    simp [computeAlign]
  · intro border row ptag align ua
    simp [_build_row, El.children, List.enum_length]
  · intro border row ptag align ua i a h
    rw [List.get?_eq_getElem?] at h
    simp [_build_row, El.children, List.get?_map, List.get?_enum, h]
  · intro align
    constructor
    · simp [_build_empty_row, El.children]
    · simp [_build_empty_row, El.children, List.all_eq_true, El.tag, El.text, El.children]
  · intro border sep ua b rest h
    simp [tableRun, h]

/-- C10 witness: the invariant at the concrete rows of the end-to-end
table `|a|b|\n|-|-|\n|1|2|` (two separator columns) and at the bodyless
table block `|a|b|\n|-|-|`. -/
theorem table_row_width_invariant_witness :
    (computeAlign ["-", "-"]).length = 2
    ∧ (_build_row true "|1|2|" "tbody" [none, none] false).children.length = 2
    ∧ (_build_row true "|1|" "tbody" [none, none] false).children.get? 1 =
        some (El.mk (if "tbody" == "thead" then "th" else "td") (alignAttrs false none)
          (some (stripSpaces ((_split_row true "|1|").getD 1 ""))) [])
    ∧ (_build_empty_row [none, none]).children.length = 2
    ∧ (tableRun true ["-", "-"] false ["|a|b|\n|-|-|"]).2.2 = some (.mk "table" [] none
        [.mk "thead" [] none
          [_build_row true (stripSpaces ((splitNl "|a|b|\n|-|-|").headD "")) "thead"
            (computeAlign ["-", "-"]) false],
         .mk "tbody" [] none [_build_empty_row (computeAlign ["-", "-"])]]) := by
  refine ⟨(table_row_width_invariant.1 ["-", "-"]).trans (by decide),
          (table_row_width_invariant.2.1 true "|1|2|" "tbody" [none, none] false).trans
            (by decide),
          table_row_width_invariant.2.2.1 true "|1|" "tbody" [none, none] false 1 none rfl,
          ((table_row_width_invariant.2.2.2.1 [none, none]).1).trans (by decide),
          table_row_width_invariant.2.2.2.2 true ["-", "-"] false "|a|b|\n|-|-|" []
            (by decide)⟩

/-! ### Theorems: Registry ordering (C3) -/

theorem register_namesNodup {α : Type} (r : Registry α) (it : α) (n : String) (p : ℚ)
    (h : (r.entries.map (fun e => e.name)).Nodup) :
    ((r.register it n p).entries.map (fun e => e.name)).Nodup := by
  unfold Registry.register
  rw [List.map_append, List.nodup_append]
  refine ⟨h.sublist ((List.filter_sublist r.entries).map _), by simp, ?_⟩
  intro a ha
  simp only [List.mem_map] at ha
  obtain ⟨e, he, rfl⟩ := ha
  have hne : e.name ≠ n := by simpa using (List.mem_filter.mp he).2
  intro hmem
  simp only [List.map_cons, List.map_nil, List.mem_singleton] at hmem
  exact hne hmem

theorem deregister_namesNodup {α : Type} (r r2 : Registry α) (n : String) (s : Bool)
    (h : (r.entries.map (fun e => e.name)).Nodup)
    (hd : r.deregister n s = some r2) :
    (r2.entries.map (fun e => e.name)).Nodup := by
  unfold Registry.deregister at hd
  split at hd
  · cases hd
    exact h.sublist ((List.filter_sublist r.entries).map _)
  · split at hd
    · cases hd
    · cases hd
      exact h

theorem applyOps_namesNodup {α : Type} : ∀ (ops : List (RegOp α)) (r r2 : Registry α),
    (r.entries.map (fun e => e.name)).Nodup → applyOps r ops = some r2 →
    (r2.entries.map (fun e => e.name)).Nodup := by
  intro ops
  induction ops with
  | nil =>
    intro r r2 h he
    cases he
    exact h
  | cons op ops ih =>
    intro r r2 h he
    unfold applyOps at he
    cases hop : applyOp r op with
    | none => rw [hop] at he; cases he
    | some r1 =>
      rw [hop] at he
      refine ih r1 r2 ?_ he
      cases op with
      | register it n p =>
        cases hop
        exact register_namesNodup r it n p h
      | deregister n s =>
        exact deregister_namesNodup r r1 n s h hop

theorem filter_ne_length {α : Type} (n : String) : ∀ l : List (RegEntry α),
    (l.map (fun e => e.name)).Nodup → l.any (fun e => e.name == n) = true →
    (l.filter (fun e => e.name != n)).length + 1 = l.length := by
  intro l
  induction l with
  | nil => simp
  | cons e l ih =>
    intro hn ha
    rw [List.map_cons, List.nodup_cons] at hn
    by_cases he : e.name = n
    · have hrest : List.filter (fun e2 : RegEntry α => e2.name != n) l = l := by
        apply List.filter_eq_self.mpr
        intro e2 h2
        have hne : e2.name ≠ n := by
          intro hcontra
          exact hn.1 (by rw [he, ← hcontra]; exact List.mem_map_of_mem _ h2)
        simpa using hne
      rw [List.filter_cons, he]
      simp [hrest]
    · have ha2 : l.any (fun e2 => e2.name == n) = true := by
        rw [List.any_cons] at ha
        rcases Bool.or_eq_true_iff.mp ha with h1 | h2
        · exact absurd (by simpa using h1) he
        · exact h2
      have ihr := ih hn.2 ha2
      rw [List.filter_cons]
      have hcond : (e.name != n) = true := by simpa using he
      simp only [hcond, if_true, List.length_cons]
      omega

theorem findIdxAux_spec {β : Type} (p : β → Bool) : ∀ l : List β, l.any p = true →
    ∃ i x, findIdxAux p l = some i ∧ l.get? i = some x ∧ p x = true := by
  intro l
  induction l with
  | nil => simp
  | cons b l ih =>
    intro h
    by_cases hb : p b = true
    · exact ⟨0, b, by simp [findIdxAux, hb], rfl, hb⟩
    · have h2 : l.any p = true := by
        rw [List.any_cons] at h
        rcases Bool.or_eq_true_iff.mp h with h1 | h2
        · exact absurd h1 hb
        · exact h2
      obtain ⟨i, x, h1, hget, h3⟩ := ih h2
      exact ⟨i + 1, x, by simp [findIdxAux, hb, h1], hget, h3⟩

theorem names_get?_unique {α : Type} (l : List (Nat × RegEntry α)) (n : String)
    (h : (l.map (fun x => x.2.name)).Nodup) (i j : Nat) (x y : Nat × RegEntry α)
    (hi : l.get? i = some x) (hj : l.get? j = some y)
    (hx : x.2.name = n) (hy : y.2.name = n) : i = j := by
  have hmi : (l.map (fun x => x.2.name)).get? i = some n := by
    rw [List.get?_map, hi, Option.map_some']
    rw [hx]
  have hmj : (l.map (fun x => x.2.name)).get? j = some n := by
    rw [List.get?_map, hj, Option.map_some']
    rw [hy]
  have hlen : i < (l.map (fun x => x.2.name)).length := by
    rw [List.length_map]
    exact (List.get?_eq_some.mp hi).1
  exact List.get?_inj hlen h (hmi.trans hmj.symm)

theorem sortedKeyed_names_nodup {α : Type} (r : Registry α)
    (h : (r.entries.map (fun e => e.name)).Nodup) :
    (r.sortedKeyed.map (fun x => x.2.name)).Nodup := by
  have hk : (r.keyed.map (fun x => x.2.name)).Nodup := by
    have : r.keyed.map (fun x => x.2.name) = r.entries.map (fun e => e.name) := by
      rw [Registry.keyed]
      rw [show (fun x : Nat × RegEntry α => x.2.name) =
        ((fun e : RegEntry α => e.name) ∘ Prod.snd) from rfl]
      rw [← List.map_map, List.enum_map_snd]
    rw [this]
    exact h
  exact (((List.perm_insertionSort regOrder r.keyed).map _).nodup_iff).mpr hk

/-- C3: from any finite operation sequence applied to the empty
registry — arbitrary rational priorities included — names stay unique;
iteration is a permutation of the registered entries, pairwise sorted
by priority descending with most-recent-registration-first tie break;
re-registering an existing name does not grow the registry; and
`get_index_for_name` yields exactly the named entry's position in the
iteration order. -/
theorem registry_ordering {α : Type} (ops : List (RegOp α)) (r : Registry α)
    (h : buildRegistry ops = some r) :
    ((r.entries.map (fun e => e.name)).Nodup)
    ∧ r.sortedKeyed.Perm r.keyed
    ∧ r.sortedKeyed.Pairwise (fun x y => y.2.priority < x.2.priority
        ∨ (x.2.priority = y.2.priority ∧ y.1 < x.1))
    ∧ (∀ (it : α) (n : String) (p : ℚ), r.entries.any (fun e => e.name == n) = true →
        (r.register it n p).entries.length = r.entries.length)
    ∧ (∀ n : String, r.entries.any (fun e => e.name == n) = true →
        ∃ i x, r.get_index_for_name n = some i ∧ r.sortedKeyed.get? i = some x
          ∧ x.2.name = n
          ∧ ∀ (j : Nat) (y : Nat × RegEntry α),
              r.sortedKeyed.get? j = some y → y.2.name = n → j = i) := by
  have hnodup : (r.entries.map (fun e => e.name)).Nodup :=
    applyOps_namesNodup ops ⟨[]⟩ r (by simp) h
  refine ⟨hnodup, List.perm_insertionSort regOrder r.keyed, ?_, ?_, ?_⟩
  · have hs : r.sortedKeyed.Pairwise regOrder :=
      List.sorted_insertionSort regOrder r.keyed
    have hfst : (r.sortedKeyed.map Prod.fst).Nodup :=
      (((List.perm_insertionSort regOrder r.keyed).map Prod.fst).nodup_iff).mpr
        (List.nodup_enum_map_fst _)
    have hpw : r.sortedKeyed.Pairwise (fun x y => x.1 ≠ y.1) :=
      List.pairwise_map.mp hfst
    refine (hs.and hpw).imp ?_
    intro a b hab
    rcases hab with ⟨h1 | ⟨heq, hle⟩, h2⟩
    · exact Or.inl h1
    · exact Or.inr ⟨heq, lt_of_le_of_ne hle (fun hh => h2 hh.symm)⟩
  · intro it n p hmem
    unfold Registry.register
    rw [List.length_append]
    have := filter_ne_length n r.entries hnodup hmem
    simp only [List.length_cons, List.length_nil]
    omega
  · intro n hmem
    have hsortednames := sortedKeyed_names_nodup r hnodup
    have hany : r.sortedKeyed.any (fun x => x.2.name == n) = true := by
      rcases List.any_eq_true.mp hmem with ⟨e, he, hpe⟩
      have he2 : e ∈ r.keyed.map Prod.snd := by
        rw [Registry.keyed, List.enum_map_snd]
        exact he
      rcases List.mem_map.mp he2 with ⟨x, hx, rfl⟩
      exact List.any_eq_true.mpr
        ⟨x, ((List.perm_insertionSort regOrder r.keyed).mem_iff).mpr hx, hpe⟩
    obtain ⟨i, x, hfind, hget, hpx⟩ :=
      findIdxAux_spec (fun x => x.2.name == n) r.sortedKeyed hany
    refine ⟨i, x, hfind, hget, by simpa using hpx, ?_⟩
    intro j y hj hy
    exact names_get?_unique r.sortedKeyed n hsortednames j i y x hj hget hy
      (by simpa using hpx)

/-- C3 witness: the theorem applied to the concrete sequence of the
repository's `testRegisterDupplicate` test — register `a` at 20,
register `b` at 10, re-register `b` at 30 — which reaches the registry
`[a@20, b@30]`; the name lookups are discharged concretely. -/
theorem registry_ordering_witness :
    ((Registry.mk (α := String) [⟨"a", "A", 20⟩, ⟨"b", "B2", 30⟩]).entries.map
        (fun e => e.name)).Nodup
    ∧ (Registry.mk (α := String) [⟨"a", "A", 20⟩, ⟨"b", "B2", 30⟩]).sortedKeyed.Perm
        (Registry.mk (α := String) [⟨"a", "A", 20⟩, ⟨"b", "B2", 30⟩]).keyed
    ∧ (∀ (it : String) (n : String) (p : ℚ),
        (Registry.mk (α := String) [⟨"a", "A", 20⟩, ⟨"b", "B2", 30⟩]).entries.any
          (fun e => e.name == n) = true →
        ((Registry.mk (α := String) [⟨"a", "A", 20⟩, ⟨"b", "B2", 30⟩]).register it n p
          ).entries.length =
          (Registry.mk (α := String) [⟨"a", "A", 20⟩, ⟨"b", "B2", 30⟩]).entries.length)
    ∧ (∃ i x, (Registry.mk (α := String) [⟨"a", "A", 20⟩, ⟨"b", "B2", 30⟩]
          ).get_index_for_name "a" = some i
        ∧ (Registry.mk (α := String) [⟨"a", "A", 20⟩, ⟨"b", "B2", 30⟩]
            ).sortedKeyed.get? i = some x
        ∧ x.2.name = "a"
        ∧ ∀ (j : Nat) (y : Nat × RegEntry String),
            (Registry.mk (α := String) [⟨"a", "A", 20⟩, ⟨"b", "B2", 30⟩]
              ).sortedKeyed.get? j = some y → y.2.name = "a" → j = i) := by
  have h := registry_ordering
    [RegOp.register "A" "a" 20, RegOp.register "B1" "b" 10, RegOp.register "B2" "b" 30]
    ⟨[⟨"a", "A", 20⟩, ⟨"b", "B2", 30⟩]⟩ rfl
  exact ⟨h.1, h.2.1, h.2.2.2.1, h.2.2.2.2 "a" (by rfl)⟩

/-! ### Theorems: atomic strings (C2) -/

theorem string_append_empty (s : String) : s ++ "" = s :=
  congrArg String.mk (List.append_nil s.data)

theorem atomSub_append : ∀ (g : IForest) {f f2 : IForest},
    AtomSub f f2 → AtomSub f (g.append f2)
  | .nil, _, _, h => h
  | .cons e g, _, _, h => AtomSub.skip e (atomSub_append g h)

mutual
theorem atomEq_inlineEl (p : String → Option MString × IForest) :
    ∀ el : IElement, AtomEq el (inlineEl p el)
  | .mk tg a tx tl c =>
    AtomEq.mk
      (fun s hs hat => by rw [hs]; simp [processText, hat])
      (fun _ hs _ => hs)
      (atomSub_append (processText p tx).2 (atomSub_inlineF p c))
theorem atomSub_inlineF (p : String → Option MString × IForest) :
    ∀ fo : IForest, AtomSub fo (inlineF p fo)
  | .nil => AtomSub.nil _
  | .cons (.mk tg a tx tl c) fo =>
    AtomSub.cons
      (AtomEq.mk
        (fun s hs hat => by rw [hs]; simp [processText, hat])
        (fun s hs hat => by
          simp only [IElement.tailOf, hs, processText, hat]
          simp)
        (atomSub_append (processText p tx).2 (atomSub_inlineF p c)))
      (atomSub_append (processText p (IElement.tailOf (.mk tg a tx tl c))).2
        (atomSub_inlineF p fo))
end

/-- C2: for every pattern engine and every element tree, the inline
tree processor leaves every atomic text and tail string unchanged at
any nesting depth (the original elements reappear in order with their
atomic slots verbatim); and the serializer ignores the atomic flag,
emitting the string verbatim apart from text escaping. -/
theorem atomic_string_untouched :
    (∀ (p : String → Option MString × IForest) (el : IElement),
      AtomEq el (inlineEl p el))
    ∧ (∀ (tg S : String) (b : Bool),
      serializeEl (.mk tg [] (some ⟨b, S⟩) none .nil)
        = "<" ++ tg ++ ">" ++ escapeText S ++ "</" ++ tg ++ ">") := by
  refine ⟨fun p el => atomEq_inlineEl p el, fun tg S b => ?_⟩
  have h1 : serializeEl (.mk tg [] (some ⟨b, S⟩) none .nil)
      = "<" ++ tg ++ "" ++ ">" ++ escapeText S ++ "" ++ "</" ++ tg ++ ">" ++ "" := rfl
  rw [h1]
  simp only [string_append_empty]

/-! ### Theorems: ancestor exclusion (C8) -/

theorem tagOf_setTail (e : IElement) (t : Option MString) :
    (e.setTail t).tagOf = e.tagOf := by
  cases e
  rfl

theorem textOf_setTail (e : IElement) (t : Option MString) :
    (e.setTail t).textOf = e.textOf := by
  cases e
  rfl

theorem tailOf_setTail (e : IElement) (t : Option MString) :
    (e.setTail t).tailOf = t := by
  cases e
  rfl

theorem tagOf_runAncEl (ex : List String) (f : String → String) (anc : List String)
    (e : IElement) : (runAncEl ex f anc e).tagOf = e.tagOf := by
  cases e
  rfl

theorem textOf_runAncEl (ex : List String) (f : String → String) (anc : List String)
    (e : IElement) :
    (runAncEl ex f anc e).textOf
      = applyUnlessExcluded ex f (anc ++ [e.tagOf]) e.textOf := by
  cases e
  rfl

theorem tailOf_runAncEl (ex : List String) (f : String → String) (anc : List String)
    (e : IElement) : (runAncEl ex f anc e).tailOf = e.tailOf := by
  cases e
  rfl

theorem childrenOf_runAncEl (ex : List String) (f : String → String) (anc : List String)
    (e : IElement) :
    (runAncEl ex f anc e).childrenOf
      = runAncF ex f (anc ++ [e.tagOf]) e.childrenOf := by
  cases e
  rfl

theorem forestGet_runAncF (ex : List String) (f : String → String) (anc : List String) :
    ∀ (i : Nat) (fo : IForest),
    forestGet (runAncF ex f anc fo) i
      = (forestGet fo i).map
        (fun e => (runAncEl ex f anc e).setTail
          (applyUnlessExcluded ex f anc e.tailOf)) := by
  intro i
  induction i with
  | zero =>
    intro fo
    cases fo <;> rfl
  | succ n ih =>
    intro fo
    cases fo with
    | nil => rfl
    | cons e fo2 =>
      show forestGet (runAncF ex f anc fo2) n = _
      rw [ih fo2]
      rfl

theorem navigate_setTail (e : IElement) (t : Option MString) (i : Nat) (p : List Nat) :
    navigate (e.setTail t) (i :: p) = navigate e (i :: p) := by
  cases e
  rfl

theorem tagsAlong_ne_nil (el : IElement) (path : List Nat) (ts : List String)
    (h : tagsAlong el path = some ts) : ts ≠ [] := by
  cases path with
  | nil =>
    rw [tagsAlong] at h
    cases h
    simp
  | cons i p =>
    rw [tagsAlong] at h
    cases hg : forestGet el.childrenOf i with
    | none => rw [hg] at h; cases h
    | some c =>
      rw [hg] at h
      simp only [Option.some_bind] at h
      cases ht : tagsAlong c p with
      | none => rw [ht] at h; cases h
      | some ts2 =>
        rw [ht] at h
        simp only [Option.map_some'] at h
        cases h
        simp

/-- The ancestor-exclusion walk, located at any path: the text of the
target is transformed exactly under the chain of tags along the path,
and the tail under that chain without the target itself. -/
theorem runAnc_navigate (ex : List String) (f : String → String) :
    ∀ (path : List Nat) (el : IElement) (anc : List String) (tgt : IElement)
      (ts : List String),
    navigate el path = some tgt → tagsAlong el path = some ts →
    ∃ tgt2 : IElement, navigate (runAncEl ex f anc el) path = some tgt2
      ∧ tgt2.tagOf = tgt.tagOf
      ∧ tgt2.textOf = applyUnlessExcluded ex f (anc ++ ts) tgt.textOf
      ∧ (path = [] → tgt2.tailOf = tgt.tailOf)
      ∧ (path ≠ [] →
          tgt2.tailOf = applyUnlessExcluded ex f (anc ++ ts.dropLast) tgt.tailOf) := by
  intro path
  induction path with
  | nil =>
    intro el anc tgt ts hnav htags
    rw [navigate] at hnav
    rw [tagsAlong] at htags
    cases hnav
    cases htags
    refine ⟨runAncEl ex f anc el, rfl, tagOf_runAncEl ex f anc el, ?_,
      fun _ => tailOf_runAncEl ex f anc el, fun hne => absurd rfl hne⟩
    exact textOf_runAncEl ex f anc el
  | cons i p ih =>
    intro el anc tgt ts hnav htags
    rw [navigate] at hnav
    rw [tagsAlong] at htags
    cases hg : forestGet el.childrenOf i with
    | none =>
      rw [hg] at hnav
      cases hnav
    | some c =>
      rw [hg] at hnav htags
      simp only [Option.some_bind] at hnav htags
      cases ht : tagsAlong c p with
      | none => rw [ht] at htags; cases htags
      | some ts2 =>
        rw [ht] at htags
        simp only [Option.map_some'] at htags
        cases htags
        have hnav2 : navigate (runAncEl ex f anc el) (i :: p)
            = navigate ((runAncEl ex f (anc ++ [el.tagOf]) c).setTail
                (applyUnlessExcluded ex f (anc ++ [el.tagOf]) c.tailOf)) p := by
          rw [navigate, childrenOf_runAncEl, forestGet_runAncF, hg]
          rfl
        cases p with
        | nil =>
          rw [navigate] at hnav
          cases hnav
          rw [tagsAlong] at ht
          cases ht
          refine ⟨_, by rw [hnav2]; rfl, ?_, ?_, ?_, ?_⟩
          · rw [tagOf_setTail, tagOf_runAncEl]
          · rw [textOf_setTail, textOf_runAncEl]
            simp [List.append_assoc]
          · intro hcontra
            exact absurd hcontra (by simp)
          · intro _
            rw [tailOf_setTail]
            simp
        | cons j q =>
          rw [navigate_setTail] at hnav2
          obtain ⟨tgt2, hn2, htag, htext, _, htail⟩ :=
            ih c (anc ++ [el.tagOf]) tgt ts2 hnav ht
          refine ⟨tgt2, by rw [hnav2]; exact hn2, htag, ?_, ?_, ?_⟩
          · rw [htext]
            simp [List.append_assoc]
          · intro hcontra
            exact absurd hcontra (by simp)
          · intro _
            have hts2 : ts2 ≠ [] := tagsAlong_ne_nil c (j :: q) ts2 ht
            rw [htail (by simp)]
            cases ts2 with
            | nil => exact absurd rfl hts2
            | cons b l =>
              show _ = applyUnlessExcluded ex f
                (anc ++ (el.tagOf :: (b :: l).dropLast)) tgt.tailOf
              simp [List.append_assoc]

/-- C8: for an inline pattern with `ANCESTOR_EXCLUDES = {a}`: at every
position of every tree, the pattern fires on the target's text exactly
as governed by the tag chain leading to it (its own tag included) and
on its tail by the chain without the target; concretely, with the
`+x+ → strong` transformation the pattern fires inside `<p>` but the
literal text `+link+` inside `<a href=...>` is left unchanged, a
`+strong+` tail inside a link is left unchanged, and a tail outside
any link does fire. -/
theorem ancestor_exclusion :
    (∀ (ex : List String) (f : String → String) (root tgt : IElement)
        (path : List Nat) (ts : List String),
      navigate root path = some tgt → tagsAlong root path = some ts →
      ∃ tgt2, navigate (runAncEl ex f [] root) path = some tgt2
        ∧ tgt2.tagOf = tgt.tagOf
        ∧ tgt2.textOf = applyUnlessExcluded ex f ts tgt.textOf
        ∧ (path ≠ [] →
            tgt2.tailOf = applyUnlessExcluded ex f ts.dropLast tgt.tailOf))
    ∧ runAncEl ["a"] (fun _ => "<strong>x</strong>") []
        (.mk "p" [] (some ⟨false, "Some +test+ and a "⟩) none
          (.cons (.mk "a" [("href", "http://test.com")]
            (some ⟨false, "+link+"⟩) none .nil) .nil))
      = .mk "p" [] (some ⟨false, "<strong>x</strong>"⟩) none
          (.cons (.mk "a" [("href", "http://test.com")]
            (some ⟨false, "+link+"⟩) none .nil) .nil)
    ∧ runAncEl ["a"] (fun _ => "<strong>x</strong>") []
        (.mk "p" [] none none (.cons
          (.mk "a" [("href", "http://test.com")] none none (.cons
            (.mk "strong" [] none none (.cons
              (.mk "em" [] (some ⟨false, "+em+"⟩) (some ⟨false, "+strong+"⟩) .nil)
              .nil))
            .nil))
          .nil))
      = .mk "p" [] none none (.cons
          (.mk "a" [("href", "http://test.com")] none none (.cons
            (.mk "strong" [] none none (.cons
              (.mk "em" [] (some ⟨false, "+em+"⟩) (some ⟨false, "+strong+"⟩) .nil)
              .nil))
            .nil))
          .nil)
    ∧ runAncEl ["a"] (fun _ => "<strong>x</strong>") []
        (.mk "p" [] none none
          (.cons (.mk "em" [] none (some ⟨false, " +x+ "⟩) .nil) .nil))
      = .mk "p" [] none none
          (.cons (.mk "em" [] none (some ⟨false, "<strong>x</strong>"⟩) .nil) .nil) := by
  refine ⟨?_, rfl, rfl, rfl⟩
  intro ex f root tgt path ts hnav htags
  obtain ⟨tgt2, h1, h2, h3, _, h5⟩ := runAnc_navigate ex f path root [] tgt ts hnav htags
  exact ⟨tgt2, h1, h2, by simpa using h3, fun hne => by simpa using h5 hne⟩

/-- C8 witness: the navigation statement applied at the link child of
`<p>Some +test+ and a <a href=...>+link+</a></p>` — the chain is
`[p, a]`, so the text stays literal; its tail chain is `[p]`. -/
theorem ancestor_exclusion_witness :
    ∃ tgt2, navigate (runAncEl ["a"] (fun _ => "<strong>x</strong>") []
        (.mk "p" [] (some ⟨false, "Some +test+ and a "⟩) none
          (.cons (.mk "a" [("href", "http://test.com")]
            (some ⟨false, "+link+"⟩) none .nil) .nil))) [0] = some tgt2
      ∧ tgt2.tagOf = "a"
      ∧ tgt2.textOf = applyUnlessExcluded ["a"] (fun _ => "<strong>x</strong>")
          ["p", "a"] (some ⟨false, "+link+"⟩)
      ∧ ([0] ≠ ([] : List Nat) →
          tgt2.tailOf = applyUnlessExcluded ["a"] (fun _ => "<strong>x</strong>")
            ["p"] none) := by
  exact ancestor_exclusion.1 ["a"] (fun _ => "<strong>x</strong>")
    (.mk "p" [] (some ⟨false, "Some +test+ and a "⟩) none
      (.cons (.mk "a" [("href", "http://test.com")]
        (some ⟨false, "+link+"⟩) none .nil) .nil))
    (.mk "a" [("href", "http://test.com")] (some ⟨false, "+link+"⟩) none .nil)
    [0] ["p", "a"] rfl rfl

end MarkdownSpec
